import Mathlib

/-!
# Verification of the SudoSOS revision / ledger / fine core

Shallow embedding of the revisioned-entity workflow (ProductService,
ContainerService) and the debtor/fine engine (DebtorService, Transfer
entity hooks) of the SudoSOS backend, together with proofs of the
specified properties.

Monetary amounts are integers in minor units (cents), matching the
Dinero integer representation used by the source.
-/

namespace SudoSOS

/-! ## Fine banding

`calculateFine` embeds the source function of the same name in
`debtor-service`:

```
Math.max(Math.min(Math.floor(-balance.amount / 500) * 100, 500), 0)
```

JavaScript `Math.floor` of the real quotient is floor division, i.e.
`Int.fdiv`. -/

def calculateFine (balance : Int) : Int :=
  max (min ((-balance).fdiv 500 * 100) 500) 0

/-- Modelled from the spec: `clamp(x, lo, hi)`, the clamping operation the
spec sentence "Fine amount per user = clamp(floor(-balance / 500) * 100,
0, 500)" refers to. -/
def clampSpec (x lo hi : Int) : Int := min (max x lo) hi

/-- Modelled from the spec: the fine formula exactly as the spec writes it,
to be compared with the source-derived `calculateFine`. -/
def fineSpec (balance : Int) : Int :=
  clampSpec ((-balance).fdiv 500 * 100) 0 500

/-- Floor division by 500 coincides with Euclidean division by 500. -/
theorem fdiv_500_eq_ediv (a : Int) : a.fdiv 500 = a / 500 :=
  Int.fdiv_eq_ediv a (by decide)

theorem calculateFine_eq_ediv (b : Int) :
    calculateFine b = max (min ((-b) / 500 * 100) 500) 0 := by
  rw [calculateFine, fdiv_500_eq_ediv]

/-- C1: for every balance `b` (minor units), the computed fine equals
`clamp(floor(-b / 500) * 100, 0, 500)`; balance −499 yields fine 0, −500
yields 100, −999 yields 100, −1000 yields 200, and any balance of −2500 or
lower yields exactly 500. -/
theorem calculateFine_banding :
    (∀ b : Int, calculateFine b = fineSpec b) ∧
    calculateFine (-499) = 0 ∧
    calculateFine (-500) = 100 ∧
    calculateFine (-999) = 100 ∧
    calculateFine (-1000) = 200 ∧
    (∀ b : Int, b ≤ -2500 → calculateFine b = 500) := by
  refine ⟨?_, by decide, by decide, by decide, by decide, ?_⟩
  · intro b
    rw [calculateFine_eq_ediv, fineSpec, clampSpec, fdiv_500_eq_ediv]
    rcases le_total ((-b) / 500 * 100) 0 with h | h <;>
      rcases le_total ((-b) / 500 * 100) 500 with h' | h' <;>
      simp [max_def, min_def] <;> omega
  · intro b hb
    rw [calculateFine_eq_ediv]
    have h5 : 5 ≤ (-b) / 500 := by omega
    have : 500 ≤ (-b) / 500 * 100 := by nlinarith
    omega

/-- Witness for C1: the capped band applied at the concrete balance −2600. -/
theorem calculateFine_banding_witness : calculateFine (-2600) = 500 :=
  calculateFine_banding.2.2.2.2.2 (-2600) (by decide)

/-! ## Debtor selection (`DebtorService.calculateFinesOnDate`)

`BalanceService` is not part of the provided sources (only its callers
are), so account balances are abstracted as functions from user id to
balance in minor units, one function per point in time. -/

/-- A balance record as returned by the balance collaborator: user id and
balance amount in minor units. -/
structure BalanceRecord where
  id : Nat
  amount : Int
deriving DecidableEq

/-- Modelled from the spec: `BalanceService.getBalances` with a
`maxBalance` filter selects, among the requested user ids, exactly the
accounts whose balance (as of the requested date, given here as the
function `bal`) is at most `maxBalance`, returning one record per
selected account. -/
def getBalances (bal : Nat → Int) (maxBalance : Int) (ids : List Nat) :
    List BalanceRecord :=
  (ids.filter (fun i => decide (bal i ≤ maxBalance))).map (fun i => ⟨i, bal i⟩)

/-- Embeds `DebtorService.calculateFinesOnDate`: debtors are selected with the
−500 threshold both on the reference date (`balRef`) and now (`balNow`);
the fine is computed from the reference-date record that survives the
intersection. -/
def calculateFinesOnDate (ids : List Nat) (balRef balNow : Nat → Int) :
    List BalanceRecord :=
  let debtorsOnReferenceDate := getBalances balRef (-500) ids
  let debtorsNow := getBalances balNow (-500) ids
  let debtorsNowIds := debtorsNow.map (·.id)
  let userBalancesToFine :=
    debtorsOnReferenceDate.filter (fun b => debtorsNowIds.contains b.id)
  userBalancesToFine.map (fun u => ⟨u.id, calculateFine u.amount⟩)

/-- C2: `calculateFinesOnDate` returns exactly the requested users whose
balance is at or below −500 minor units both on the reference date and
now, each with a fine computed from the reference-date balance; users who
recovered since the reference date, and users who became debtors only
after it, are excluded. -/
theorem calculateFinesOnDate_persistent_debtors
    (ids : List Nat) (balRef balNow : Nat → Int) :
    calculateFinesOnDate ids balRef balNow =
      (ids.filter (fun i => decide (balRef i ≤ -500) && decide (balNow i ≤ -500))).map
        (fun i => ⟨i, calculateFine (balRef i)⟩) := by
  unfold calculateFinesOnDate getBalances
  simp only [List.map_map, List.filter_map, Function.comp_def, List.filter_filter]
  rw [List.filter_congr]
  intro a ha
  by_cases hN : balNow a ≤ -500 <;>
    by_cases hR : balRef a ≤ -500 <;>
      simp [List.contains, List.elem_eq_mem, List.mem_filter, List.mem_map, ha, hN, hR]

/-! ## Revisioned entities (ProductService / ContainerService)

The persisted rows relevant to one product: the base row (with its
nullable `currentRevision` pointer), the unique optional
`UpdatedProduct` draft row, and the append-only `ProductRevision` rows. -/

structure ProductDraft where
  name : String
  priceInclVat : Int
deriving DecidableEq

structure ProductRev where
  revision : Nat
  name : String
  priceInclVat : Int
deriving DecidableEq

structure ProductTable where
  /-- Holds `some cur` when the base row exists, with `cur` its nullable
  `currentRevision` column. -/
  base : Option (Option Nat)
  draft : Option ProductDraft
  revisions : List ProductRev
deriving DecidableEq

/-- JS `base.currentRevision ? base.currentRevision + 1 : 1`: any falsy
current revision (null, undefined or 0) starts the numbering at 1. -/
def nextRevision (cur : Option Nat) : Nat :=
  match cur with
  | none => 1
  | some n => if n = 0 then 1 else n + 1

inductive POutcome where
  /-- base or draft missing: the operation returns `undefined` before any
  write, so the carried table is the unchanged input. -/
  | notFound (s : ProductTable)
  | approved (s : ProductTable)
deriving DecidableEq

/-- Embeds `ProductService.approveProductUpdate`: snapshot the draft into a new
revision numbered `currentRevision + 1` (1 when absent), move the base
pointer, delete the draft. -/
def approveProductUpdate (s : ProductTable) : POutcome :=
  match s.base, s.draft with
  | some cur, some d =>
    let r := nextRevision cur
    .approved { base := some (some r), draft := none,
                revisions := s.revisions ++
                  [{ revision := r, name := d.name, priceInclVat := d.priceInclVat }] }
  | _, _ => .notFound s

/-- Embeds `ProductService.updateProduct`: create or replace the single pending
draft of an existing base product. -/
def updateProduct (s : ProductTable) (d : ProductDraft) : Option ProductTable :=
  match s.base with
  | none => none
  | some _ => some { s with draft := some d }

/-- Container draft (`UpdatedContainer`): proposed name and the list of
base product ids it references. -/
structure CDraft where
  name : String
  products : List Nat
deriving DecidableEq

/-- A pinned reference `(product id, revision number)` as captured in a
container revision; the revision is absent when the referenced product
has never been approved (`currentRevision` null). -/
structure PinnedRef where
  productId : Nat
  revision : Option Nat
deriving DecidableEq

structure CRev where
  revision : Nat
  name : String
  products : List PinnedRef
deriving DecidableEq

structure ContainerTable where
  base : Option (Option Nat)
  draft : Option CDraft
  revisions : List CRev
deriving DecidableEq

/-- The rows a container approval touches: the container's own rows and
the product tables, keyed by product id. -/
structure CStore where
  container : ContainerTable
  products : List (Nat × ProductTable)
deriving DecidableEq

/-- Find the product table row keyed by id `i` (first match). -/
def lookupProduct : List (Nat × ProductTable) → Nat → Option ProductTable
  | [], _ => none
  | p :: ps, i => if p.1 = i then some p.2 else lookupProduct ps i

/-- Replace the product table row(s) keyed by id `i`. -/
def setProduct : List (Nat × ProductTable) → Nat → ProductTable → List (Nat × ProductTable)
  | [], _, _ => []
  | p :: ps, i, t =>
    if p.1 = i then (i, t) :: setProduct ps i t else p :: setProduct ps i t

/-- Whether the product with this id has a pending `UpdatedProduct` row. -/
def hasPendingUpdate (ps : List (Nat × ProductTable)) (i : Nat) : Bool :=
  match lookupProduct ps i with
  | some t => t.draft.isSome
  | none => false

/-- The `currentRevision` column of the referenced base product row, as
the draft's `products` relation exposes it. -/
def productCurrentRevision (ps : List (Nat × ProductTable)) (i : Nat) :
    Option Nat :=
  (lookupProduct ps i).bind (fun t => t.base.bind id)

/-- Embeds `ProductRevision.findByIds`: keep exactly the pinned refs that name an
existing product revision row. -/
def resolveRefs (ps : List (Nat × ProductTable)) (refs : List PinnedRef) :
    List PinnedRef :=
  refs.filter (fun r =>
    match r.revision, lookupProduct ps r.productId with
    | some n, some t => (t.revisions.find? (fun v => v.revision == n)).isSome
    | _, _ => false)

inductive COutcome where
  /-- base or draft missing: `undefined` is returned before any write. -/
  | notFound (s : CStore)
  /-- strict variant only: `UnapprovedProductError` thrown before any
  write. -/
  | unapprovedProduct (s : CStore)
  | approved (s : CStore)
deriving DecidableEq

/-- Strict variant of `ContainerService.approveContainerUpdate`: if any
listed product still has a pending update, throw `UnapprovedProductError`
and write nothing; otherwise pin the products' current revisions into a
new container revision. -/
def approveContainerUpdateStrict (s : CStore) : COutcome :=
  match s.container.base, s.container.draft with
  | some cur, some d =>
    let refs := d.products.map
      (fun i => PinnedRef.mk i (productCurrentRevision s.products i))
    if d.products.any (fun i => hasPendingUpdate s.products i) then
      .unapprovedProduct s
    else
      let productRevisions := resolveRefs s.products refs
      let r := nextRevision cur
      let container' : ContainerTable :=
        { base := some (some r), draft := none,
          revisions := s.container.revisions ++ [⟨r, d.name, productRevisions⟩] }
      .approved { container := container', products := s.products }
  | _, _ => .notFound s

/-- One auto-approval step of the lax container approval: approve the
pending update of product `i` and push the freshly created revision onto
the pinned list. -/
def laxApprovalStep (acc : List (Nat × ProductTable) × List PinnedRef) (i : Nat) :
    List (Nat × ProductTable) × List PinnedRef :=
  match lookupProduct acc.1 i with
  | some t =>
    match approveProductUpdate t with
    | .approved t' => (setProduct acc.1 i t', acc.2 ++ [⟨i, t'.base.bind id⟩])
    | .notFound _ => acc
  | none => acc

/-- Lax variant of `ContainerService.approveContainerUpdate`: every listed
product that still has a pending update is auto-approved first
(`ProductService.approveProductUpdate`), and the freshly created product
revisions are pushed onto the pinned list alongside the previously
current ones, before the container revision is created. -/
def approveContainerUpdateLax (s : CStore) : COutcome :=
  match s.container.base, s.container.draft with
  | some cur, some d =>
    let refs := d.products.map
      (fun i => PinnedRef.mk i (productCurrentRevision s.products i))
    let pendingIds := d.products.filter (fun i => hasPendingUpdate s.products i)
    let stepped := pendingIds.foldl laxApprovalStep (s.products, [])
    let productRevisions := resolveRefs stepped.1 (refs ++ stepped.2)
    let r := nextRevision cur
    let container' : ContainerTable :=
      { base := some (some r), draft := none,
        revisions := s.container.revisions ++ [⟨r, d.name, productRevisions⟩] }
    .approved { container := container', products := stepped.1 }
  | _, _ => .notFound s

/-- Embeds `ContainerService.updateContainer`: create or replace the single
pending draft of an existing base container; referenced product ids that
do not resolve to an existing base product are dropped silently. -/
def updateContainer (s : CStore) (d : CDraft) : Option CStore :=
  match s.container.base with
  | none => none
  | some _ => some { s with container := { s.container with
      draft := some ⟨d.name, d.products.filter
        (fun i => (lookupProduct s.products i).isSome)⟩ } }

def POutcome.toOption : POutcome → Option ProductTable
  | .approved s => some s
  | .notFound _ => none

def COutcome.toOption : COutcome → Option CStore
  | .approved s => some s
  | _ => none

/-- N draft/approve rounds on one product: each round installs the next
draft (`updateProduct`) and approves it (`approveProductUpdate`). -/
def approveProductTimes (ds : List ProductDraft) (s : ProductTable) :
    Option ProductTable :=
  ds.foldl (fun acc d => acc.bind (fun st =>
    (updateProduct st d).bind (fun st2 => (approveProductUpdate st2).toOption))) (some s)

/-- N draft/approve rounds on one container, through the strict variant. -/
def approveContainerTimes (ds : List CDraft) (s : CStore) : Option CStore :=
  ds.foldl (fun acc d => acc.bind (fun st =>
    (updateContainer st d).bind (fun st2 => (approveContainerUpdateStrict st2).toOption))) (some s)

/-- A freshly created base product: base row present, `currentRevision`
null, no draft, no revisions. -/
def freshProduct : ProductTable := { base := some none, draft := none, revisions := [] }

/-- A freshly created base container over the given product tables. -/
def freshContainer (ps : List (Nat × ProductTable)) : CStore :=
  { container := { base := some none, draft := none, revisions := [] }, products := ps }

/-- The product table produced by approving draft `d` when the current
revision stands at `n`. -/
def approvedTable (s : ProductTable) (d : ProductDraft) (n : Nat) : ProductTable :=
  { base := some (some (n+1)), draft := none,
    revisions := s.revisions ++
      [{ revision := n+1, name := d.name, priceInclVat := d.priceInclVat }] }

theorem lookupProduct_mem :
    ∀ (ps : List (Nat × ProductTable)) (i : Nat) (t : ProductTable),
      lookupProduct ps i = some t → ∃ k, (k, t) ∈ ps := by
  intro ps
  induction ps with
  | nil => intro i t h; simp [lookupProduct] at h
  | cons p rest ih =>
    intro i t h
    by_cases hp : p.1 = i
    · rw [lookupProduct, if_pos hp] at h
      cases h
      exact ⟨p.1, by simp⟩
    · rw [lookupProduct, if_neg hp] at h
      obtain ⟨k, hk⟩ := ih i t h
      exact ⟨k, List.mem_cons_of_mem _ hk⟩

theorem hasPendingUpdate_of_no_drafts (ps : List (Nat × ProductTable))
    (h : ∀ p ∈ ps, (p.2).draft = none) (i : Nat) : hasPendingUpdate ps i = false := by
  unfold hasPendingUpdate
  cases hf : lookupProduct ps i with
  | none => simp
  | some t =>
    obtain ⟨k, hk⟩ := lookupProduct_mem ps i t hf
    have hd := h (k, t) hk
    simp at hd
    simp [hd]

theorem approveProductTimes_inv :
    ∀ (ds : List ProductDraft) (s : ProductTable) (n : Nat),
      s.base = some (if n = 0 then none else some n) →
      s.revisions.map (·.revision) = List.range' 1 n →
      ∃ t, approveProductTimes ds s = some t ∧
        t.base = some (if n + ds.length = 0 then none else some (n + ds.length)) ∧
        t.revisions.map (·.revision) = List.range' 1 (n + ds.length) := by
  intro ds
  induction ds with
  | nil => intro s n h1 h2; exact ⟨s, rfl, by simpa using h1, by simpa using h2⟩
  | cons d rest ih =>
    intro s n h1 h2
    have hnext : nextRevision (if n = 0 then none else some n) = n + 1 := by
      by_cases h : n = 0 <;> simp [nextRevision, h]
    have hstep : approveProductUpdate { s with draft := some d } =
        .approved (approvedTable s d n) := by
      simp [approveProductUpdate, approvedTable, h1, hnext]
    have hupd : updateProduct s d = some { s with draft := some d } := by
      simp [updateProduct, h1]
    have hchain : approveProductTimes (d :: rest) s =
        approveProductTimes rest (approvedTable s d n) := by
      simp [approveProductTimes, hupd, hstep, POutcome.toOption]
    rw [hchain]
    have h2' : (approvedTable s d n).revisions.map (·.revision) = List.range' 1 (n+1) := by
      simp [approvedTable, List.map_append, h2, List.range'_concat]
      omega
    obtain ⟨t, ht, hb, hr⟩ := ih (approvedTable s d n) (n+1) (by simp [approvedTable]) h2'
    refine ⟨t, ht, ?_, ?_⟩
    · simpa [Nat.add_comm, Nat.add_left_comm, Nat.add_assoc] using hb
    · simpa [Nat.add_comm, Nat.add_left_comm, Nat.add_assoc] using hr

theorem approveContainerTimes_inv :
    ∀ (ds : List CDraft) (s : CStore) (n : Nat),
      (∀ p ∈ s.products, (p.2).draft = none) →
      s.container.base = some (if n = 0 then none else some n) →
      s.container.revisions.map (·.revision) = List.range' 1 n →
      ∃ t, approveContainerTimes ds s = some t ∧
        t.container.base = some (if n + ds.length = 0 then none else some (n + ds.length)) ∧
        t.container.revisions.map (·.revision) = List.range' 1 (n + ds.length) ∧
        t.products = s.products := by
  intro ds
  induction ds with
  | nil =>
    intro s n _ h1 h2
    exact ⟨s, rfl, by simpa using h1, by simpa using h2, rfl⟩
  | cons d rest ih =>
    intro s n hnp h1 h2
    have hnext : nextRevision (if n = 0 then none else some n) = n + 1 := by
      by_cases h : n = 0 <;> simp [nextRevision, h]
    set d' : CDraft := ⟨d.name, d.products.filter (fun i => (lookupProduct s.products i).isSome)⟩ with hd'
    have hupd : updateContainer s d =
        some { s with container := { s.container with draft := some d' } } := by
      simp [updateContainer, h1, hd']
    have hany : d'.products.any (fun i => hasPendingUpdate s.products i) = false := by
      simp only [List.any_eq_false]
      intro x _
      simp [hasPendingUpdate_of_no_drafts s.products hnp x]
    set refs := d'.products.map (fun i => PinnedRef.mk i (productCurrentRevision s.products i)) with hrefs
    set c2 : ContainerTable :=
      { base := some (some (n+1)), draft := none,
        revisions := s.container.revisions ++ [⟨n+1, d'.name, resolveRefs s.products refs⟩] }
      with hc2
    set s2 : CStore := { container := c2, products := s.products } with hs2
    have hstep : approveContainerUpdateStrict
        { s with container := { s.container with draft := some d' } } = .approved s2 := by
      simp only [approveContainerUpdateStrict, h1, hany, hnext, hs2, hc2, hrefs]
      simp [hany]
    have hchain : approveContainerTimes (d :: rest) s = approveContainerTimes rest s2 := by
      simp [approveContainerTimes, hupd, hstep, COutcome.toOption]
    rw [hchain]
    have h2' : s2.container.revisions.map (·.revision) = List.range' 1 (n+1) := by
      simp [hs2, hc2, List.map_append, h2, List.range'_concat]
      omega
    obtain ⟨t, ht, hb, hr, hp⟩ := ih s2 (n+1) (by simpa [hs2] using hnp) (by simp [hs2]) h2'
    refine ⟨t, ht, ?_, ?_, by simpa [hs2] using hp⟩
    · simpa [Nat.add_comm, Nat.add_left_comm, Nat.add_assoc] using hb
    · simpa [Nat.add_comm, Nat.add_left_comm, Nat.add_assoc] using hr

/-- C4: after N successful draft/approve rounds starting from a fresh
base, for a product as well as for a container (whose referenced products
carry no pending updates), the base's `currentRevision` equals N and
exactly N revision rows exist, numbered 1..N contiguously. -/
theorem revision_numbering_contiguous :
    (∀ ds : List ProductDraft, ∃ t, approveProductTimes ds freshProduct = some t ∧
        t.base = some (if ds.length = 0 then none else some ds.length) ∧
        t.revisions.map (·.revision) = List.range' 1 ds.length) ∧
    (∀ (ds : List CDraft) (ps : List (Nat × ProductTable)),
        (∀ p ∈ ps, (p.2).draft = none) →
        ∃ t, approveContainerTimes ds (freshContainer ps) = some t ∧
          t.container.base = some (if ds.length = 0 then none else some ds.length) ∧
          t.container.revisions.map (·.revision) = List.range' 1 ds.length) := by
  constructor
  · intro ds
    have h := approveProductTimes_inv ds freshProduct 0
      (by simp [freshProduct]) (by simp [freshProduct])
    simpa using h
  · intro ds ps hnp
    obtain ⟨t, h1, h2, h3, _⟩ := approveContainerTimes_inv ds (freshContainer ps) 0
      (by simpa [freshContainer] using hnp) (by simp [freshContainer]) (by simp [freshContainer])
    exact ⟨t, h1, by simpa using h2, by simpa using h3⟩

/-- Witness for C4: one approval round on a fresh container with no
referenced products yields current revision 1 and revision rows [1]. -/
theorem revision_numbering_contiguous_witness :
    ∃ t, approveContainerTimes [⟨"c", []⟩] (freshContainer []) = some t ∧
      t.container.base = some (some 1) ∧
      t.container.revisions.map (·.revision) = List.range' 1 1 := by
  have h := revision_numbering_contiguous.2 [⟨"c", []⟩] [] (by simp)
  simpa using h

/-- C5: approving a product or a container whose base row does not exist,
or which has no pending draft, reports not-found and leaves the state
unchanged (the carried state is the input state: no revision row is
created, `currentRevision` untouched). -/
theorem approve_not_found_no_change :
    (∀ s : ProductTable, s.base = none → approveProductUpdate s = .notFound s) ∧
    (∀ s : ProductTable, s.draft = none → approveProductUpdate s = .notFound s) ∧
    (∀ s : CStore, s.container.base = none →
      approveContainerUpdateStrict s = .notFound s ∧
      approveContainerUpdateLax s = .notFound s) ∧
    (∀ s : CStore, s.container.draft = none →
      approveContainerUpdateStrict s = .notFound s ∧
      approveContainerUpdateLax s = .notFound s) := by
  refine ⟨?_, ?_, ?_, ?_⟩
  · intro s h; simp [approveProductUpdate, h]
  · intro s h
    cases hb : s.base with
    | none => simp [approveProductUpdate, hb]
    | some c => simp [approveProductUpdate, hb, h]
  · intro s h
    constructor <;> simp [approveContainerUpdateStrict, approveContainerUpdateLax, h]
  · intro s h
    cases hb : s.container.base with
    | none => constructor <;> simp [approveContainerUpdateStrict, approveContainerUpdateLax, hb]
    | some c => constructor <;>
        simp [approveContainerUpdateStrict, approveContainerUpdateLax, hb, h]

/-- Witness for C5: approving a container with a base but no pending
draft reports not-found with the state unchanged. -/
theorem approve_not_found_no_change_witness :
    approveContainerUpdateStrict (freshContainer []) = .notFound (freshContainer []) :=
  (approve_not_found_no_change.2.2.2 (freshContainer []) rfl).1

/-- The container rows of `pendingStore`: pending draft listing product
7. -/
def pendingContainerTable : ContainerTable :=
  { base := some (some 1)
    draft := some ⟨"crate", [7]⟩
    revisions := [⟨1, "crate0", []⟩] }

/-- Product 7 of `pendingStore`: approved once, with its own pending
draft ("beer v2"). -/
def pendingProductTable : ProductTable :=
  { base := some (some 1)
    draft := some ⟨"beer v2", 250⟩
    revisions := [⟨1, "beer", 200⟩] }

/-- A container whose pending draft lists product 7, which itself still
has a pending draft. -/
def pendingStore : CStore :=
  { container := pendingContainerTable, products := [(7, pendingProductTable)] }

/-- What the lax variant produces on `pendingStore`: product 7 is
auto-approved (revision 2 created, draft deleted) and the new container
revision pins both the previously current and the fresh product
revision. -/
def laxResultStore : CStore :=
  { container :=
      { base := some (some 2)
        draft := none
        revisions := [⟨1, "crate0", []⟩, ⟨2, "crate", [⟨7, some 1⟩, ⟨7, some 2⟩]⟩] }
    products :=
      [(7, { base := some (some 2)
             draft := none
             revisions := [⟨1, "beer", 200⟩, ⟨2, "beer v2", 250⟩] })] }

/-- C7: the two source variants of `approveContainerUpdate` disagree on
containers whose draft lists a product with its own pending draft: the
strict variant throws `UnapprovedProductError` and creates no container
revision, while the lax variant auto-approves every pending product
update (creating product revisions) and then creates the container
revision; hence the variants are not equivalent on such inputs. -/
theorem container_approval_variants_disagree :
    (∀ (s : CStore) (cur : Option Nat) (d : CDraft),
      s.container.base = some cur → s.container.draft = some d →
      d.products.any (fun i => hasPendingUpdate s.products i) = true →
      approveContainerUpdateStrict s = .unapprovedProduct s) ∧
    (∀ (s : CStore) (cur : Option Nat) (d : CDraft),
      s.container.base = some cur → s.container.draft = some d →
      ∃ t, approveContainerUpdateLax s = .approved t) ∧
    (approveContainerUpdateLax pendingStore = .approved laxResultStore ∧
     approveContainerUpdateStrict pendingStore = .unapprovedProduct pendingStore ∧
     approveContainerUpdateLax pendingStore ≠ approveContainerUpdateStrict pendingStore) := by
  refine ⟨?_, ?_, by decide, by decide, by decide⟩
  · intro s cur d h1 h2 h3
    simp [approveContainerUpdateStrict, h1, h2, h3]
  · intro s cur d h1 h2
    unfold approveContainerUpdateLax
    rw [h1, h2]
    exact ⟨_, rfl⟩

/-- Witness for C7: the strict variant rejects the concrete pending
store. -/
theorem container_approval_variants_disagree_witness :
    approveContainerUpdateStrict pendingStore = .unapprovedProduct pendingStore :=
  container_approval_variants_disagree.1 pendingStore (some 1) ⟨"crate", [7]⟩
    (by decide) (by decide) (by decide)

/-! ## Immutability of revision rows -/

/-- Embeds `ProductRevision.denyUpdate` (the `BeforeUpdate` hook): any attempt to
update a persisted revision row in place throws unconditionally, whatever
new field values are proposed. -/
def denyUpdate (_r : ProductRev) (_proposed : ProductDraft) : Except String ProductRev :=
  .error "Immutable entities cannot be updated."

/-- Existing revision rows of every product are preserved: whatever `qs`
holds for a product id, it extends what `ps` held by appending. -/
def revisionsExtend (ps qs : List (Nat × ProductTable)) : Prop :=
  ∀ i t', lookupProduct qs i = some t' →
    ∃ t tail, lookupProduct ps i = some t ∧ t'.revisions = t.revisions ++ tail

theorem revisionsExtend_refl (ps : List (Nat × ProductTable)) : revisionsExtend ps ps :=
  fun _ t' h => ⟨t', [], h, by simp⟩

theorem revisionsExtend_trans {ps qs rs : List (Nat × ProductTable)}
    (h1 : revisionsExtend ps qs) (h2 : revisionsExtend qs rs) : revisionsExtend ps rs := by
  intro i t' h
  obtain ⟨t2, tl2, hq, he2⟩ := h2 i t' h
  obtain ⟨t1, tl1, hp, he1⟩ := h1 i t2 hq
  exact ⟨t1, tl1 ++ tl2, hp, by simp [he2, he1]⟩

theorem approveProductUpdate_appends (s t : ProductTable)
    (h : approveProductUpdate s = .approved t) :
    ∃ rv, t.revisions = s.revisions ++ [rv] := by
  unfold approveProductUpdate at h
  cases hb : s.base <;> rw [hb] at h
  · simp at h
  · cases hd : s.draft <;> rw [hd] at h
    · simp at h
    · dsimp only at h
      cases h
      exact ⟨_, rfl⟩

theorem lookupProduct_setProduct :
    ∀ (ps : List (Nat × ProductTable)) (j : Nat) (t' : ProductTable) (i : Nat),
    lookupProduct (setProduct ps j t') i =
      if i = j then (lookupProduct ps j).map (fun _ => t') else lookupProduct ps i := by
  intro ps j t'
  induction ps with
  | nil => intro i; by_cases h : i = j <;> simp [lookupProduct, setProduct, h]
  | cons p rest ih =>
    intro i
    by_cases hpj : p.1 = j <;> by_cases hij : i = j
    · subst hij
      simp [lookupProduct, setProduct, hpj]
    · have hpi : ¬ p.1 = i := fun hc => hij (by rw [← hc, hpj])
      simp [lookupProduct, setProduct, hpj, hpi, hij, Ne.symm hij, ih]
    · subst hij
      simp [lookupProduct, setProduct, hpj, ih]
    · by_cases hpi : p.1 = i <;>
        simp [lookupProduct, setProduct, hpj, hpi, hij, Ne.symm hij, ih]

theorem laxApprovalStep_extends (acc : List (Nat × ProductTable) × List PinnedRef)
    (i : Nat) : revisionsExtend acc.1 (laxApprovalStep acc i).1 := by
  unfold laxApprovalStep
  cases hl : lookupProduct acc.1 i with
  | none => exact revisionsExtend_refl _
  | some t =>
    dsimp only
    cases ha : approveProductUpdate t with
    | notFound _ => exact revisionsExtend_refl _
    | approved t' =>
      dsimp only
      obtain ⟨rv, hrv⟩ := approveProductUpdate_appends t t' ha
      intro k u hk
      rw [lookupProduct_setProduct] at hk
      by_cases hkj : k = i
      · subst hkj
        rw [if_pos rfl, hl] at hk
        cases hk
        exact ⟨t, [rv], hl, hrv⟩
      · rw [if_neg hkj] at hk
        exact ⟨u, [], hk, by simp⟩

theorem laxFold_extends (ids : List Nat) :
    ∀ (acc : List (Nat × ProductTable) × List PinnedRef),
      revisionsExtend acc.1 (ids.foldl laxApprovalStep acc).1 := by
  induction ids with
  | nil => intro acc; exact revisionsExtend_refl _
  | cons i rest ih =>
    intro acc
    exact revisionsExtend_trans (laxApprovalStep_extends acc i) (ih (laxApprovalStep acc i))

/-- C9: in-place mutation of a persisted revision row always fails with
the immutability error, and the public draft/approval operations never
need that branch: they only append revision rows — drafts leave revisions
untouched, and each approval (product, strict container, lax container
with its nested product auto-approvals) extends every revision list by
appending, leaving all existing rows intact. -/
theorem revision_rows_immutable :
    (∀ (r : ProductRev) (p : ProductDraft),
      denyUpdate r p = .error "Immutable entities cannot be updated.") ∧
    (∀ s t, approveProductUpdate s = .approved t →
      ∃ rv, t.revisions = s.revisions ++ [rv]) ∧
    (∀ s d t, updateProduct s d = some t → t.revisions = s.revisions) ∧
    (∀ s t, approveContainerUpdateStrict s = .approved t →
      (∃ rv, t.container.revisions = s.container.revisions ++ [rv]) ∧
      t.products = s.products) ∧
    (∀ s t, approveContainerUpdateLax s = .approved t →
      (∃ rv, t.container.revisions = s.container.revisions ++ [rv]) ∧
      revisionsExtend s.products t.products) := by
  refine ⟨fun _ _ => rfl, approveProductUpdate_appends, ?_, ?_, ?_⟩
  · intro s d t h
    unfold updateProduct at h
    cases hb : s.base <;> rw [hb] at h
    · simp at h
    · cases h; rfl
  · intro s t h
    unfold approveContainerUpdateStrict at h
    cases hb : s.container.base <;> rw [hb] at h
    · simp at h
    · cases hd : s.container.draft <;> rw [hd] at h
      · simp at h
      · dsimp only at h
        split at h
        · simp at h
        · cases h
          exact ⟨⟨_, rfl⟩, rfl⟩
  · intro s t h
    unfold approveContainerUpdateLax at h
    cases hb : s.container.base <;> rw [hb] at h
    · simp at h
    · cases hd : s.container.draft <;> rw [hd] at h
      · simp at h
      · dsimp only at h
        cases h
        exact ⟨⟨_, rfl⟩, laxFold_extends _ _⟩

/-- Witness for C9: the strict approval of the draft-free single-round
container store appends exactly one revision row. -/
theorem revision_rows_immutable_witness :
    (∃ rv, laxResultStore.container.revisions =
      pendingStore.container.revisions ++ [rv]) ∧
    revisionsExtend pendingStore.products laxResultStore.products :=
  revision_rows_immutable.2.2.2.2 pendingStore laxResultStore (by decide)

/-! ## Ledger store: users, fine groups, fines, transfers, handout events

The rows the fine engine reads and writes. The `outbox` field stands for
the notification collaborator (`Mailer`): an entry is appended exactly
when an email is handed over for dispatch. -/

structure UserRec where
  id : Nat
  /-- id of the user's active `UserFineGroup` (the `currentFines`
  back-reference), if any. -/
  currentFines : Option Nat
deriving DecidableEq

structure FineGroup where
  id : Nat
  userId : Nat
  waivedTransferId : Option Nat
deriving DecidableEq

structure TransferRec where
  id : Nat
  fromId : Option Nat
  toId : Option Nat
  amount : Int
deriving DecidableEq

structure FineRec where
  id : Nat
  groupId : Nat
  eventId : Nat
  transferId : Nat
  amount : Int
  previousFineId : Option Nat
deriving DecidableEq

structure EmailRec where
  userId : Nat
  fineAmount : Int
deriving DecidableEq

structure LedgerStore where
  users : List UserRec
  groups : List FineGroup
  fines : List FineRec
  transfers : List TransferRec
  /-- ids of the `FineHandoutEvent` rows, in insertion order. -/
  events : List Nat
  outbox : List EmailRec
deriving DecidableEq

def findUser (users : List UserRec) (uid : Nat) : Option UserRec :=
  users.find? (fun u => u.id == uid)

/-- Rewrite the `currentFines` back-reference of the user with id `uid`. -/
def setCurrentFines (users : List UserRec) (uid : Nat) (g : Option Nat) :
    List UserRec :=
  users.map (fun u => if u.id = uid then { u with currentFines := g } else u)

/-- The dinero reduce in `waiveFines`: sum of the amounts of the fines
belonging to group `gid`, starting from 0. -/
def groupFinesTotal (s : LedgerStore) (gid : Nat) : Int :=
  (s.fines.filter (fun f => f.groupId == gid)).foldl (fun acc f => acc + f.amount) 0

/-- Embeds `DebtorService.waiveFines`: error when the user is absent; no-op when
the user has no active fine group; otherwise create one crediting
transfer for the sum of the group's fines, record it as the group's
waived transfer, and clear the user's active-fine-group flag. -/
def waiveFines (s : LedgerStore) (userId : Nat) : Except String LedgerStore :=
  match findUser s.users userId with
  | none => .error "User does not exist"
  | some user =>
    match user.currentFines with
    | none => .ok s
    | some gid =>
      let amount := groupFinesTotal s gid
      let tid := s.transfers.length + 1
      .ok { s with
        transfers := s.transfers ++ [⟨tid, none, some userId, amount⟩],
        groups := s.groups.map (fun g =>
          if g.id = gid then { g with waivedTransferId := some tid } else g),
        users := setCurrentFines s.users userId none }

/-- Embeds `Transfer.validateDebtPaid` (the `AfterInsert` hook): when the
freshly inserted transfer has a destination whose account carries the
unpaid-fine marker and whose recomputed balance is non-negative, clear
the marker; fines themselves are never touched. `getBalance` is modelled
from the spec: `BalanceService.getBalance` (not among the provided
sources) returns the account's total balance derived from the ledger
after this insert. -/
def validateDebtPaid (s : LedgerStore) (t : TransferRec) (getBalance : Nat → Int) :
    LedgerStore :=
  match t.toId with
  | none => s
  | some uid =>
    match findUser s.users uid with
    | none => s
    | some user =>
      match user.currentFines with
      | none => s
      | some _ =>
        if 0 ≤ getBalance uid then
          { s with users := setCurrentFines s.users uid none }
        else s

/-- The `(userId, fine id)` pairs of the fines of the latest handout event,
used to link each new fine to the user's previous fine. -/
def previousFinePairs (s : LedgerStore) : List (Nat × Nat) :=
  match s.events with
  | [] => []
  | _ =>
    let pid := s.events.foldl max 0
    (s.fines.filter (fun f => f.eventId == pid)).filterMap (fun f =>
      ((s.groups.find? (fun g => g.id == f.groupId)).map (·.userId)).map
        (fun u => (u, f.id)))

def previousFineFor (pairs : List (Nat × Nat)) (uid : Nat) : Option Nat :=
  (pairs.find? (fun p => p.1 == uid)).map (·.2)

/-- The lazy `UserFineGroup` creation step of `handOutFines`: when the
user has no active group, create one (saved via `userFineGroup.save()`
on the entity, hence recorded in the escape list `esc` of rows written
outside the transaction manager) and link it as the user's
`currentFines` only when the fine amount is strictly positive. Returns
the updated store, the group id to attach the fine to, and the escape
list. -/
def groupStep (cur : LedgerStore) (user : UserRec) (uid : Nat) (amount : Int)
    (esc : List FineGroup) : LedgerStore × Nat × List FineGroup :=
  match user.currentFines with
  | some g => (cur, g, esc)
  | none =>
    let g : FineGroup := ⟨cur.groups.length + 1, uid, none⟩
    let curA := { cur with groups := cur.groups ++ [g] }
    let curB := if 0 < amount
      then { curA with users := setCurrentFines curA.users uid (some g.id) }
      else curA
    (curB, g.id, esc ++ [g])

/-- The per-user section of the transaction body of
`DebtorService.handOutFines`, processed sequentially over the balance
records. `failTransfer` injects a failing transfer insert (the spec's
"simulated failure mid-batch"); a missing user row also aborts the body.
The error value carries the `UserFineGroup` rows created so far: the
source saves them with `userFineGroup.save()` on the entity instead of
`manager.save`, i.e. outside the transaction manager, so they survive
the rollback. -/
def processUsers (pairs : List (Nat × Nat)) (eventId : Nat)
    (failTransfer : Nat → Bool) :
    List (Nat × Int) → LedgerStore → List FineRec → List EmailRec →
    List FineGroup → Except (List FineGroup) (LedgerStore × List FineRec × List EmailRec)
  | [], cur, acc, ems, _esc => .ok (cur, acc, ems)
  | (uid, bal) :: rest, cur, acc, ems, esc =>
    match findUser cur.users uid with
    | none => .error esc
    | some user =>
      let amount := calculateFine bal
      let next := groupStep cur user uid amount esc
      if failTransfer uid then .error next.2.2
      else
        let cur1 := next.1
        let tid := cur1.transfers.length + 1
        let cur2 := { cur1 with transfers := cur1.transfers ++ [⟨tid, some uid, none, amount⟩] }
        let fine : FineRec :=
          ⟨cur2.fines.length + acc.length + 1, next.2.1, eventId, tid, amount,
            previousFineFor pairs uid⟩
        processUsers pairs eventId failTransfer rest cur2 (acc ++ [fine])
          (ems ++ [⟨uid, amount⟩]) next.2.2

structure HandOutResult where
  success : Bool
  store : LedgerStore
deriving DecidableEq

/-- Embeds `DebtorService.handOutFines`. `balances` are the reference-date
balance records of the requested user ids (`BalanceService.getBalances`
called without a `maxBalance` filter, modelled from the spec: one record
per requested account, with no debtor filtering). The surrounding
`getConnection().transaction` gives the semantics: on success all writes
land and the collected emails are handed to the mailer after the commit;
on failure every write through the transaction manager is rolled back,
but the `UserFineGroup` rows saved outside the manager remain. -/
def handOutFines (s : LedgerStore) (balances : List (Nat × Int))
    (failTransfer : Nat → Bool) : HandOutResult :=
  let pairs := previousFinePairs s
  let eid := s.events.foldl max 0 + 1
  let cur0 := { s with events := s.events ++ [eid] }
  match processUsers pairs eid failTransfer balances cur0 [] [] [] with
  | .error esc => { success := false, store := { s with groups := s.groups ++ esc } }
  | .ok (cur, acc, ems) =>
      { success := true,
        store := { cur with fines := cur.fines ++ acc, outbox := cur.outbox ++ ems } }

theorem groupStep_preserves (cur : LedgerStore) (user : UserRec) (uid : Nat)
    (amount : Int) (esc : List FineGroup) :
    (groupStep cur user uid amount esc).1.transfers = cur.transfers ∧
    (groupStep cur user uid amount esc).1.fines = cur.fines ∧
    (groupStep cur user uid amount esc).1.events = cur.events ∧
    (groupStep cur user uid amount esc).1.outbox = cur.outbox := by
  unfold groupStep
  cases user.currentFines with
  | some g => exact ⟨rfl, rfl, rfl, rfl⟩
  | none => by_cases h : 0 < amount <;> simp [h]

theorem processUsers_ok_counts (pairs : List (Nat × Nat)) (eid : Nat)
    (failT : Nat → Bool) :
    ∀ (bs : List (Nat × Int)) (cur : LedgerStore) (acc : List FineRec)
      (ems : List EmailRec) (esc : List FineGroup) (cur' : LedgerStore)
      (acc' : List FineRec) (ems' : List EmailRec),
      processUsers pairs eid failT bs cur acc ems esc = .ok (cur', acc', ems') →
      acc'.length = acc.length + bs.length ∧
      ems'.length = ems.length + bs.length ∧
      cur'.transfers.length = cur.transfers.length + bs.length ∧
      cur'.fines = cur.fines ∧ cur'.events = cur.events ∧ cur'.outbox = cur.outbox := by
  intro bs
  induction bs with
  | nil =>
    intro cur acc ems esc cur' acc' ems' h
    rw [processUsers] at h
    cases h
    simp
  | cons b rest ih =>
    obtain ⟨uid, bal⟩ := b
    intro cur acc ems esc cur' acc' ems' h
    rw [processUsers] at h
    cases hf : findUser cur.users uid with
    | none => rw [hf] at h; simp at h
    | some user =>
      rw [hf] at h
      dsimp only at h
      by_cases hft : failT uid
      · rw [if_pos hft] at h; simp at h
      · rw [if_neg hft] at h
        obtain ⟨h1, h2, h3, h4, h5, h6⟩ := ih _ _ _ _ _ _ _ h
        obtain ⟨hgT, hgF, hgE, hgO⟩ :=
          groupStep_preserves cur user uid (calculateFine bal) esc
        have hgTlen : (groupStep cur user uid (calculateFine bal) esc).1.transfers.length
            = cur.transfers.length := by rw [hgT]
        refine ⟨?_, ?_, ?_, ?_, ?_, ?_⟩
        · simp only [List.length_append, List.length_cons, List.length_nil] at h1 ⊢
          omega
        · simp only [List.length_append, List.length_cons, List.length_nil] at h2 ⊢
          omega
        · simp only [List.length_append, List.length_cons, List.length_nil] at h3 ⊢
          omega
        · rw [h4]; exact hgF
        · rw [h5]; exact hgE
        · rw [h6]; exact hgO

/-- The concrete one-debtor store behind the C3 analysis: user 1 exists,
has no fine group, and the balance record gives −1000 on the reference
date. -/
def debtorStore : LedgerStore :=
  { users := [⟨1, none⟩], groups := [], fines := [], transfers := [],
    events := [], outbox := [] }

/-- C3 (failing input): hand out fines to user 1 while the transfer
insert fails. The transaction rolls back the `FineHandoutEvent`, the
`Fine` rows and the `Transfer` rows, and no email is dispatched — but
the freshly created `UserFineGroup`, saved via `userFineGroup.save()`
outside the transaction manager, remains persisted, contradicting the
claim that no `UserFineGroup` created by the call survives a mid-batch
failure. -/
theorem handOutFines_rollback_keeps_group :
    (handOutFines debtorStore [(1, -1000)] (fun _ => true)).success = false ∧
    (handOutFines debtorStore [(1, -1000)] (fun _ => true)).store.fines = [] ∧
    (handOutFines debtorStore [(1, -1000)] (fun _ => true)).store.transfers = [] ∧
    (handOutFines debtorStore [(1, -1000)] (fun _ => true)).store.events = [] ∧
    (handOutFines debtorStore [(1, -1000)] (fun _ => true)).store.outbox = [] ∧
    (handOutFines debtorStore [(1, -1000)] (fun _ => true)).store.groups =
      [⟨1, 1, none⟩] := by
  refine ⟨?_, ?_, ?_, ?_, ?_, ?_⟩ <;> decide

/-- Any balance strictly above the −500 threshold yields fine 0. -/
theorem calculateFine_nonDebtor (b : Int) (hb : -500 < b) : calculateFine b = 0 := by
  rw [calculateFine_eq_ediv]
  have hq : (-b) / 500 ≤ 0 := by omega
  omega

/-- C10: `handOutFines` re-checks no debtor eligibility: every balance
record passed in yields exactly one fine and one debiting transfer (first
conjunct), and a user above the −500 threshold at the reference date
still gets a Fine and a Transfer of amount 0 together with a saved
`UserFineGroup`, which is not linked as the user's `currentFines` because
the amount is not strictly positive (second conjunct, stated for a
single-user batch in a store with no prior handout event). -/
theorem handOutFines_no_eligibility_recheck :
    (∀ (s : LedgerStore) (balances : List (Nat × Int)) (failT : Nat → Bool),
      (handOutFines s balances failT).success = true →
      (handOutFines s balances failT).store.fines.length =
        s.fines.length + balances.length ∧
      (handOutFines s balances failT).store.transfers.length =
        s.transfers.length + balances.length) ∧
    (∀ (s : LedgerStore) (uid : Nat) (b : Int),
      findUser s.users uid = some ⟨uid, none⟩ → -500 < b → s.events = [] →
      handOutFines s [(uid, b)] (fun _ => false) =
        { success := true,
          store :=
            { users := s.users,
              groups := s.groups ++ [⟨s.groups.length + 1, uid, none⟩],
              fines := s.fines ++ [⟨s.fines.length + 1, s.groups.length + 1, 1,
                s.transfers.length + 1, 0, none⟩],
              transfers := s.transfers ++ [⟨s.transfers.length + 1, some uid, none, 0⟩],
              events := [1],
              outbox := s.outbox ++ [⟨uid, 0⟩] } }) := by
  constructor
  · intro s balances failT hsuc
    unfold handOutFines at hsuc ⊢
    dsimp only at hsuc ⊢
    cases hp : processUsers (previousFinePairs s) (s.events.foldl max 0 + 1) failT balances
        { s with events := s.events ++ [s.events.foldl max 0 + 1] } [] [] [] with
    | error esc => rw [hp] at hsuc; simp at hsuc
    | ok res =>
      obtain ⟨cur, acc, ems⟩ := res
      obtain ⟨h1, _h2, h3, h4, _h5, _h6⟩ :=
        processUsers_ok_counts _ _ _ _ _ _ _ _ _ _ _ hp
      simp only [List.length_nil, Nat.zero_add] at h1 h3
      constructor
      · dsimp only
        rw [List.length_append, h1, h4]
      · dsimp only
        rw [h3]
  · intro s uid b hfind hb hev
    have h0 : calculateFine b = 0 := calculateFine_nonDebtor b hb
    unfold handOutFines previousFinePairs
    rw [hev]
    dsimp only
    rw [processUsers]
    dsimp only
    rw [hfind]
    dsimp only
    rw [groupStep]
    dsimp only
    rw [h0]
    norm_num
    rw [processUsers]
    dsimp only
    rw [previousFineFor]
    simp

/-- Witness for C10: a user with balance −100 (above the threshold) in a
one-user store still receives a zero-amount fine, a zero-amount debiting
transfer and a saved but unlinked fine group. -/
theorem handOutFines_no_eligibility_recheck_witness :
    handOutFines debtorStore [(1, -100)] (fun _ => false) =
      { success := true,
        store :=
          { users := [⟨1, none⟩],
            groups := [⟨1, 1, none⟩],
            fines := [⟨1, 1, 1, 1, 0, none⟩],
            transfers := [⟨1, some 1, none, 0⟩],
            events := [1],
            outbox := [⟨1, 0⟩] } } := by
  have h := handOutFines_no_eligibility_recheck.2 debtorStore 1 (-100)
    (by decide) (by decide) (by decide)
  simpa [debtorStore] using h

/-! ## Waiving fines -/

theorem findUser_setCurrentFines :
    ∀ (users : List UserRec) (uid : Nat) (v : Option Nat) (u : UserRec),
      findUser users uid = some u →
      findUser (setCurrentFines users uid v) uid = some { u with currentFines := v } := by
  intro users uid v
  induction users with
  | nil => intro u h; simp [findUser] at h
  | cons w rest ih =>
    intro u h
    by_cases hw : w.id = uid
    · have hb : ((fun x : UserRec => x.id == uid) w) = true := by simp [hw]
      rw [findUser, List.find?_cons_of_pos (p := fun x : UserRec => x.id == uid) rest hb] at h
      cases h
      unfold setCurrentFines findUser
      simp only [List.map_cons, if_pos hw]
      exact List.find?_cons_of_pos (p := fun x : UserRec => x.id == uid) _ (by simp [hw])
    · have hb : ¬ ((fun x : UserRec => x.id == uid) w) = true := by simp [hw]
      rw [findUser, List.find?_cons_of_neg (p := fun x : UserRec => x.id == uid) rest hb] at h
      have ih' := ih u h
      unfold setCurrentFines findUser at ih' ⊢
      simp only [List.map_cons, if_neg hw]
      rw [List.find?_cons_of_neg (p := fun x : UserRec => x.id == uid) _ (by simpa using hb)]
      exact ih'

/-- The store `waiveFines` produces for a user whose active group is
`gid`: one crediting transfer over the group's fine total, the group's
waived-transfer link set, the user's active-fine-group flag cleared. -/
def waivedStore (s : LedgerStore) (uid gid : Nat) : LedgerStore :=
  { s with
    transfers := s.transfers ++
      [⟨s.transfers.length + 1, none, some uid, groupFinesTotal s gid⟩],
    groups := s.groups.map (fun g =>
      if g.id = gid then { g with waivedTransferId := some (s.transfers.length + 1) } else g),
    users := setCurrentFines s.users uid none }

/-- C6: `waiveFines` errors when the user does not exist; is a no-op when
the user has no active fine group; and otherwise creates exactly one
crediting transfer for the sum of the active group's fine amounts,
records it as the group's waived transfer and clears the user's
active-fine-group flag, so that a second call on the resulting store is
a no-op. -/
theorem waiveFines_spec :
    (∀ (s : LedgerStore) (uid : Nat), findUser s.users uid = none →
      waiveFines s uid = .error "User does not exist") ∧
    (∀ (s : LedgerStore) (uid : Nat) (u : UserRec),
      findUser s.users uid = some u → u.currentFines = none →
      waiveFines s uid = .ok s) ∧
    (∀ (s : LedgerStore) (uid : Nat) (u : UserRec) (gid : Nat),
      findUser s.users uid = some u → u.currentFines = some gid →
      waiveFines s uid = .ok (waivedStore s uid gid) ∧
      waiveFines (waivedStore s uid gid) uid = .ok (waivedStore s uid gid)) := by
  refine ⟨?_, ?_, ?_⟩
  · intro s uid h
    unfold waiveFines
    rw [h]
  · intro s uid u h hcf
    unfold waiveFines
    rw [h]
    dsimp only
    rw [hcf]
  · intro s uid u gid h hcf
    constructor
    · unfold waiveFines
      rw [h]
      dsimp only
      rw [hcf]
      rfl
    · unfold waiveFines
      have hf : findUser (waivedStore s uid gid).users uid =
          some { u with currentFines := none } := by
        unfold waivedStore
        exact findUser_setCurrentFines s.users uid none u h
      rw [hf]

/-- The concrete fine store behind the C6 example: user 4 has an active
group 9 holding fines of 100 and 200 minor units. -/
def twoFineStore : LedgerStore :=
  { users := [⟨4, some 9⟩],
    groups := [⟨9, 4, none⟩],
    fines := [⟨1, 9, 1, 1, 100, none⟩, ⟨2, 9, 2, 2, 200, some 1⟩],
    transfers := [⟨1, some 4, none, 100⟩, ⟨2, some 4, none, 200⟩],
    events := [1, 2], outbox := [] }

/-- Witness for C6: waiving user 4's fines of 100+200 creates one
crediting transfer of 300 and clears the flag; a second call is a no-op. -/
theorem waiveFines_spec_witness :
    waiveFines twoFineStore 4 = .ok (waivedStore twoFineStore 4 9) ∧
    waiveFines (waivedStore twoFineStore 4 9) 4 = .ok (waivedStore twoFineStore 4 9) ∧
    groupFinesTotal twoFineStore 9 = 300 := by
  have h := waiveFines_spec.2.2 twoFineStore 4 ⟨4, some 9⟩ 9 (by decide) (by decide)
  exact ⟨h.1, h.2, by decide⟩

/-! ## Clearing the unpaid-fine marker after a transfer -/

/-- C8: after inserting a transfer, the `AfterInsert` hook clears the
destination account's unpaid-fine marker exactly when the transfer has a
destination, that account carries the marker, and its recomputed balance
is non-negative; the Fine rows (and all other rows) are untouched, and in
every other case the store is returned unchanged. -/
theorem validateDebtPaid_spec :
    (∀ (s : LedgerStore) (t : TransferRec) (bal : Nat → Int),
      t.toId = none → validateDebtPaid s t bal = s) ∧
    (∀ (s : LedgerStore) (t : TransferRec) (bal : Nat → Int) (uid : Nat) (u : UserRec),
      t.toId = some uid → findUser s.users uid = some u → u.currentFines = none →
      validateDebtPaid s t bal = s) ∧
    (∀ (s : LedgerStore) (t : TransferRec) (bal : Nat → Int) (uid : Nat)
      (u : UserRec) (g : Nat),
      t.toId = some uid → findUser s.users uid = some u → u.currentFines = some g →
      bal uid < 0 → validateDebtPaid s t bal = s) ∧
    (∀ (s : LedgerStore) (t : TransferRec) (bal : Nat → Int) (uid : Nat)
      (u : UserRec) (g : Nat),
      t.toId = some uid → findUser s.users uid = some u → u.currentFines = some g →
      0 ≤ bal uid →
      validateDebtPaid s t bal = { s with users := setCurrentFines s.users uid none } ∧
      (validateDebtPaid s t bal).fines = s.fines ∧
      (validateDebtPaid s t bal).groups = s.groups ∧
      (validateDebtPaid s t bal).transfers = s.transfers) := by
  refine ⟨?_, ?_, ?_, ?_⟩
  · intro s t bal h
    unfold validateDebtPaid
    rw [h]
  · intro s t bal uid u ht hf hcf
    unfold validateDebtPaid
    rw [ht]
    dsimp only
    rw [hf]
    dsimp only
    rw [hcf]
  · intro s t bal uid u g ht hf hcf hb
    unfold validateDebtPaid
    rw [ht]
    dsimp only
    rw [hf]
    dsimp only
    rw [hcf]
    dsimp only
    rw [if_neg (by omega)]
  · intro s t bal uid u g ht hf hcf hb
    have hmain : validateDebtPaid s t bal =
        { s with users := setCurrentFines s.users uid none } := by
      unfold validateDebtPaid
      rw [ht]
      dsimp only
      rw [hf]
      dsimp only
      rw [hcf]
      dsimp only
      rw [if_pos hb]
    exact ⟨hmain, by rw [hmain], by rw [hmain], by rw [hmain]⟩

/-- The concrete store behind the C8 witness: user 2 has the unpaid-fine
marker for group 5 and one fine of 300 minor units. -/
def markedStore : LedgerStore :=
  { users := [⟨2, some 5⟩],
    groups := [⟨5, 2, none⟩],
    fines := [⟨1, 5, 1, 1, 300, none⟩],
    transfers := [⟨1, some 2, none, 300⟩],
    events := [1], outbox := [] }

/-- Witness for C8: a deposit of 300 to user 2 brings the balance to 0,
so the marker is cleared while the fine rows stay. -/
theorem validateDebtPaid_spec_witness :
    validateDebtPaid markedStore ⟨2, none, some 2, 300⟩ (fun _ => 0) =
      { markedStore with users := setCurrentFines markedStore.users 2 none } ∧
    (validateDebtPaid markedStore ⟨2, none, some 2, 300⟩ (fun _ => 0)).fines =
      markedStore.fines :=
  ⟨(validateDebtPaid_spec.2.2.2 markedStore ⟨2, none, some 2, 300⟩ (fun _ => 0) 2
      ⟨2, some 5⟩ 5 rfl (by decide) rfl (by decide)).1,
   (validateDebtPaid_spec.2.2.2 markedStore ⟨2, none, some 2, 300⟩ (fun _ => 0) 2
      ⟨2, some 5⟩ 5 rfl (by decide) rfl (by decide)).2.1⟩

end SudoSOS
